import Mathlib

/-!
Shallow embedding of the `zk-exam` repository source file `src/ring.rs`.

The Rust code provides a bounded modular ring (`SmallRing`, `SmallRingElement`
over `u32` / `u64`) and an extended Euclidean algorithm `extended_euclidean`
over `i64` that records a forward (`down`) and a backward (`up`) trace.

Modelling conventions:
* `i64` is modelled as `Int` and `u32` / `u64` as `Nat`; fixed-width overflow
  is not modelled (the spec lists 64-bit overflow as a documented, unhandled
  limitation outside the algorithm's contract).
* Rust's truncated integer division and remainder on `i64` are `Int.tdiv` and
  `Int.tmod`.
* Code that can panic is modelled with `Option`: `none` is a panic.  The panic
  sources kept in the model are the explicit ring-mismatch `panic!` calls, the
  remainder-by-zero fault of `%`, and the `.expect("Infallible")` on the last
  forward row.
-/

namespace ZkExam

/-- One `[i64; 4]` row of the Euclidean traces; `r0`, `r1`, `r2`, `r3` are the
array entries `row[0]`..`row[3]`. -/
structure EERow where
  r0 : Int
  r1 : Int
  r2 : Int
  r3 : Int
deriving DecidableEq

/-- The trace structure `ExtendedEuclideanView { down, up }` of the source. -/
structure ExtendedEuclideanView where
  down : List EERow
  up : List EERow
deriving DecidableEq

/-- The forward (`down`) loop of `extended_euclidean`:
`while current_row[1] > 1 { q := r0 / r1; r := r0 % r1; push row; current := (r1, r) }`.
Returns the accumulated rows together with the final `(current_row[0], current_row[1])`
pair at loop exit. -/
def euclidLoop (cur : Int × Int) : List EERow × (Int × Int) :=
  if _h : 1 < cur.2 then
    let q := cur.1.tdiv cur.2
    let r := cur.1.tmod cur.2
    let rest := euclidLoop (cur.2, r)
    (⟨cur.1, cur.2, q, r⟩ :: rest.1, rest.2)
  else ([], cur)
termination_by cur.2.toNat
decreasing_by
  rcases le_or_lt 0 (cur.1.tmod cur.2) with _hnn | hneg
  · have hlt : cur.1.tmod cur.2 < cur.2 := Int.tmod_lt_of_pos cur.1 (by omega)
    omega
  · have : (cur.1.tmod cur.2).toNat = 0 := by omega
    omega

/-- One step of the backward (`up`) loop:
`current_row = [ *z, current_row[3], current_row[0], current_row[1] - current_row[3] * d ]`
where `z = row[0]` and `d = row[2]` of the forward row being consumed. -/
def upStep (cur row : EERow) : EERow :=
  ⟨row.r0, cur.r3, cur.r0, cur.r1 - cur.r3 * row.r2⟩

/-- The backward (`up`) loop of `extended_euclidean`: fold `upStep` over the
given forward rows, recording each produced row.  Returns the recorded rows and
the final `current_row`. -/
def upLoop (rows : List EERow) (cur : EERow) : List EERow × EERow :=
  match rows with
  | [] => ([], cur)
  | row :: rest =>
    let next := upStep cur row
    let res := upLoop rest next
    (next :: res.1, res.2)

/-- The backward phase of `extended_euclidean`: seed from the last forward row
(`current_row = [last[0], 1, last[1], -last[2]]`), then walk the forward trace
in reverse, skipping the last row.  `none` models the
`down.last().expect("Infallible")` panic on an empty forward trace. -/
def upPhase (down : List EERow) : Option (List EERow × EERow) :=
  match down.getLast? with
  | none => none
  | some last =>
    let cur0 : EERow := ⟨last.r0, 1, last.r1, -last.r2⟩
    let res := upLoop (down.reverse.drop 1) cur0
    some (cur0 :: res.1, res.2)

/-- `extended_euclidean(x: i64, y: i64) -> Result<(i64, i64, ExtendedEuclideanView), i64>`
from `src/ring.rs`.  `some (Except.ok (a, b, view))` is `Ok((a, b, view))`,
`some (Except.error g)` is `Err(g)`, and `none` is a panic. -/
def extended_euclidean (x y : Int) :
    Option (Except Int (Int × Int × ExtendedEuclideanView)) :=
  let xa := |x|
  let ya := |y|
  let swapped := xa < ya
  let p : Int × Int := if swapped then (xa, ya) else (ya, xa)
  if p.2 < 2 then some (Except.error p.2)
  else
    let res := euclidLoop p
    if res.2.2 = 0 then some (Except.error res.2.1)
    else
      match upPhase res.1 with
      | none => none
      | some (up, fin) =>
        let a := if swapped then fin.r1 else fin.r3
        let b := if swapped then fin.r3 else fin.r1
        some (Except.ok (a, b, ⟨res.1, up⟩))

/-- `SmallRing { module: u32 }` from the source; `u32` is modelled as `Nat`. -/
structure SmallRing where
  module : Nat
deriving DecidableEq

/-- `SmallRingElement { ring: SmallRing, value: u64 }`; `u64` is modelled as
`Nat`.  The Rust equality is the derived `PartialEq`/`Eq`, comparing both
fields, matching the derived `DecidableEq` here. -/
structure SmallRingElement where
  ring : SmallRing
  value : Nat
deriving DecidableEq

/-- `SmallRing::create_element`: stores the raw value verbatim, with no
reduction modulo the ring modulus. -/
def SmallRing.create_element (r : SmallRing) (value : Nat) : SmallRingElement :=
  ⟨r, value⟩

/-- `impl Add for SmallRingElement`: panic (`none`) on a ring mismatch, and on
the remainder-by-zero fault of `% module` when the modulus is `0`; otherwise
`(lhs.value + rhs.value) % module`. -/
def SmallRingElement.add (lhs rhs : SmallRingElement) : Option SmallRingElement :=
  if lhs.ring = rhs.ring then
    if lhs.ring.module = 0 then none
    else some ⟨lhs.ring, (lhs.value + rhs.value) % lhs.ring.module⟩
  else none

/-- `impl Sub for SmallRingElement`: panic (`none`) on a ring mismatch, and on
`% 0`; otherwise `(lhs.value + module + rhs.value) % module` — note the source
adds `rhs.value`, it does not subtract it. -/
def SmallRingElement.sub (lhs rhs : SmallRingElement) : Option SmallRingElement :=
  if lhs.ring = rhs.ring then
    if lhs.ring.module = 0 then none
    else some ⟨lhs.ring, (lhs.value + lhs.ring.module + rhs.value) % lhs.ring.module⟩
  else none

/-- `impl Mul for SmallRingElement`: panic (`none`) on a ring mismatch, and on
`% 0`; otherwise `(lhs.value * rhs.value) % module`. -/
def SmallRingElement.mul (lhs rhs : SmallRingElement) : Option SmallRingElement :=
  if lhs.ring = rhs.ring then
    if lhs.ring.module = 0 then none
    else some ⟨lhs.ring, (lhs.value * rhs.value) % lhs.ring.module⟩
  else none

/-- `impl Rem for SmallRingElement`: the source performs NO ring-identity
check; `none` models only the `self.value % rhs.value` remainder-by-zero
panic.  The result is wrapped in the left operand's ring. -/
def SmallRingElement.rem (lhs rhs : SmallRingElement) : Option SmallRingElement :=
  if rhs.value = 0 then none
  else some (lhs.ring.create_element (lhs.value % rhs.value))

/-- `impl Neg for SmallRingElement`: `module - value`, with no special case
for `value = 0` and no re-reduction.  (The `u64` underflow fault for
`value > module` is not modelled; the claims only use reduced values.) -/
def SmallRingElement.neg (e : SmallRingElement) : SmallRingElement :=
  e.ring.create_element (e.ring.module - e.value)

/-- `impl Ord for SmallRingElement`: `self.value.cmp(&other.value)` — purely
the stored value, ignoring the ring. -/
def SmallRingElement.cmp (a b : SmallRingElement) : Ordering :=
  compare a.value b.value

/-- The coefficient pair of a successful `extended_euclidean` call, when the
call succeeds. -/
def coeffs (x y : Int) : Option (Int × Int) :=
  match extended_euclidean x y with
  | some (Except.ok (a, b, _)) => some (a, b)
  | _ => none

/-- `extended_euclidean x y` succeeds and its coefficients `(a, b)` satisfy
the Bezout identity on the absolute values, `a * |x| + b * |y| = 1`. -/
def bezoutAbsHolds (x y : Int) : Prop :=
  match extended_euclidean x y with
  | some (Except.ok (a, b, _)) => a * |x| + b * |y| = 1
  | _ => False

/-! ## Basic unfolding lemmas for the forward loop -/

theorem euclidLoop_cons {p q : Int} (h : 1 < q) :
    euclidLoop (p, q) =
      ((⟨p, q, p.tdiv q, p.tmod q⟩ : EERow) :: (euclidLoop (q, p.tmod q)).1,
       (euclidLoop (q, p.tmod q)).2) := by
  rw [euclidLoop]
  simp [h]

theorem euclidLoop_nil {p q : Int} (h : ¬ 1 < q) :
    euclidLoop (p, q) = ([], (p, q)) := by
  rw [euclidLoop]
  simp [h]

/-! ## Forward-loop invariants -/

theorem euclidLoop_ne_nil {p q : Int} (h : 1 < q) : (euclidLoop (p, q)).1 ≠ [] := by
  rw [euclidLoop_cons h]
  simp

/-- At loop exit the second component fails the loop guard. -/
theorem euclidLoop_fin_le_one (cur : Int × Int) : (euclidLoop cur).2.2 ≤ 1 := by
  induction cur using euclidLoop.induct with
  | case1 cur h r ih =>
    obtain ⟨p, q⟩ := cur
    rw [euclidLoop_cons h]
    exact ih
  | case2 cur h =>
    obtain ⟨p, q⟩ := cur
    rw [euclidLoop_nil h]
    exact not_lt.mp h

/-- The loop preserves nonnegativity of both components. -/
theorem euclidLoop_fin_nonneg (cur : Int × Int) :
    0 ≤ cur.1 → 0 ≤ cur.2 →
    0 ≤ (euclidLoop cur).2.1 ∧ 0 ≤ (euclidLoop cur).2.2 := by
  induction cur using euclidLoop.induct with
  | case1 cur h r ih =>
    obtain ⟨p, q⟩ := cur
    intro h1 _h2
    rw [euclidLoop_cons h]
    exact ih (by omega) (Int.tmod_nonneg q h1)
  | case2 cur h =>
    obtain ⟨p, q⟩ := cur
    intro h1 h2
    rw [euclidLoop_nil h]
    exact ⟨h1, h2⟩

/-- The loop preserves the gcd of the two components. -/
theorem euclidLoop_gcd (cur : Int × Int) :
    0 ≤ cur.1 → 0 ≤ cur.2 →
    Int.gcd (euclidLoop cur).2.1 (euclidLoop cur).2.2 = Int.gcd cur.1 cur.2 := by
  induction cur using euclidLoop.induct with
  | case1 cur h r ih =>
    obtain ⟨p, q⟩ := cur
    intro h1 h2
    rw [euclidLoop_cons h]
    rw [ih (by omega) (Int.tmod_nonneg q h1)]
    obtain ⟨m, rfl⟩ : ∃ m : Nat, p = (m : Int) := ⟨p.toNat, (Int.toNat_of_nonneg h1).symm⟩
    obtain ⟨n, rfl⟩ : ∃ n : Nat, q = (n : Int) := ⟨q.toNat, (Int.toNat_of_nonneg h2).symm⟩
    show Int.gcd (n : Int) (Int.tmod (m : Int) (n : Int)) = Int.gcd (m : Int) (n : Int)
    rw [← Int.ofNat_tmod]
    rw [Int.gcd_natCast_natCast, Int.gcd_natCast_natCast]
    rw [Nat.gcd_comm n (m % n), ← Nat.gcd_rec n m, Nat.gcd_comm n m]
  | case2 cur h =>
    obtain ⟨p, q⟩ := cur
    intro _h1 _h2
    rw [euclidLoop_nil h]

/-- Every forward row satisfies the Euclidean division identity
`x = y * q + r`, and its divisor entry passed the loop guard. -/
theorem euclidLoop_rows_div (cur : Int × Int) :
    ∀ row ∈ (euclidLoop cur).1,
      row.r0 = row.r1 * row.r2 + row.r3 ∧ 1 < row.r1 ∧
      row.r2 = row.r0.tdiv row.r1 ∧ row.r3 = row.r0.tmod row.r1 := by
  induction cur using euclidLoop.induct with
  | case1 cur h r ih =>
    obtain ⟨p, q⟩ := cur
    rw [euclidLoop_cons h]
    intro row hrow
    rcases List.mem_cons.mp hrow with hEq | hmem
    · subst hEq
      refine ⟨?_, h, rfl, rfl⟩
      show p = q * p.tdiv q + p.tmod q
      have hd := Int.tmod_add_tdiv p q
      linarith
    · exact ih row hmem
  | case2 cur h =>
    obtain ⟨p, q⟩ := cur
    rw [euclidLoop_nil h]
    intro row hrow
    simp at hrow

/-! ## Backward-phase structure -/

theorem upLoop_single (row : EERow) (c : EERow) :
    upLoop [row] c = ([upStep c row], upStep c row) := rfl

theorem upLoop_append (l1 l2 : List EERow) (c : EERow) :
    upLoop (l1 ++ l2) c =
      ((upLoop l1 c).1 ++ (upLoop l2 (upLoop l1 c).2).1,
       (upLoop l2 (upLoop l1 c).2).2) := by
  induction l1 generalizing c with
  | nil => simp [upLoop]
  | cons a t ih =>
    simp only [List.cons_append, upLoop, List.append_eq]
    rw [ih]

theorem drop_one_append {A B : List EERow} (h : A ≠ []) :
    (A ++ B).drop 1 = A.drop 1 ++ B := by
  cases A with
  | nil => exact absurd rfl h
  | cons a t => simp

theorem upPhase_single (row : EERow) :
    upPhase [row] =
      some ([⟨row.r0, 1, row.r1, -row.r2⟩], ⟨row.r0, 1, row.r1, -row.r2⟩) := rfl

/-- Recursion lemma: prepending a forward row to a nonempty forward trace
post-composes one `upStep` on the backward phase. -/
theorem upPhase_cons {L rest : List EERow} {U : EERow} (row : EERow)
    (h : L ≠ []) (hL : upPhase L = some (rest, U)) :
    upPhase (row :: L) = some (rest ++ [upStep U row], upStep U row) := by
  obtain ⟨b, t, rfl⟩ : ∃ b t, L = b :: t := by
    cases L with
    | nil => exact absurd rfl h
    | cons b t => exact ⟨b, t, rfl⟩
  obtain ⟨last, hlast⟩ : ∃ last, (b :: t).getLast? = some last := by
    cases hl : (b :: t).getLast? with
    | none =>
      rw [List.getLast?_eq_none_iff] at hl
      cases hl
    | some l => exact ⟨l, rfl⟩
  unfold upPhase at hL ⊢
  rw [hlast] at hL
  rw [List.getLast?_cons_cons, hlast]
  dsimp only at hL ⊢
  simp only [Option.some.injEq, Prod.mk.injEq] at hL
  obtain ⟨hrest, hU⟩ := hL
  rw [List.reverse_cons, drop_one_append (by simp), upLoop_append, upLoop_single]
  rw [← hrest, ← hU]
  simp

/-- Main backward-phase invariant: if the forward loop from `cur` exits with
remainder `1`, the backward phase succeeds, every backward row `[p, a, q, b]`
satisfies `p * a + q * b = 1`, and the final row carries the starting pair of
the forward loop in its first and third entries. -/
theorem upPhase_euclid (cur : Int × Int) :
    1 < cur.2 → (euclidLoop cur).2.2 = 1 →
    ∃ rest U, upPhase (euclidLoop cur).1 = some (rest, U) ∧
      U.r0 = cur.1 ∧ U.r2 = cur.2 ∧ U.r0 * U.r1 + U.r2 * U.r3 = 1 ∧
      ∀ row ∈ rest, row.r0 * row.r1 + row.r2 * row.r3 = 1 := by
  induction cur using euclidLoop.induct with
  | case1 cur h r ih =>
    obtain ⟨p, q⟩ := cur
    intro _ hfin
    have hdiv : p = q * p.tdiv q + p.tmod q := by
      have hd := Int.tmod_add_tdiv p q
      linarith
    have hfin' : (euclidLoop (q, Int.tmod p q)).2.2 = 1 := by
      rw [euclidLoop_cons h] at hfin
      exact hfin
    by_cases hr : 1 < Int.tmod p q
    · obtain ⟨rest, U, hup, hU0, hU2, hUsum, hall⟩ := ih hr hfin'
      have hU0' : U.r0 = q := hU0
      have hU2' : U.r2 = Int.tmod p q := hU2
      have hne : (euclidLoop (q, Int.tmod p q)).1 ≠ [] := euclidLoop_ne_nil hr
      have hstep :
          (upStep U ⟨p, q, p.tdiv q, p.tmod q⟩).r0 * (upStep U ⟨p, q, p.tdiv q, p.tmod q⟩).r1 +
            (upStep U ⟨p, q, p.tdiv q, p.tmod q⟩).r2 * (upStep U ⟨p, q, p.tdiv q, p.tmod q⟩).r3 = 1 := by
        show p * U.r3 + U.r0 * (U.r1 - U.r3 * p.tdiv q) = 1
        have hsum' : q * U.r1 + Int.tmod p q * U.r3 = 1 := by
          rw [hU0', hU2'] at hUsum
          exact hUsum
        rw [hU0']
        linear_combination hsum' + U.r3 * hdiv
      rw [euclidLoop_cons h]
      refine ⟨rest ++ [upStep U ⟨p, q, p.tdiv q, p.tmod q⟩],
        upStep U ⟨p, q, p.tdiv q, p.tmod q⟩, upPhase_cons _ hne hup, rfl, hU0', hstep, ?_⟩
      intro row hrow
      rcases List.mem_append.mp hrow with hmem | hmem
      · exact hall row hmem
      · rw [List.mem_singleton] at hmem
        subst hmem
        exact hstep
    · have hnil : euclidLoop (q, Int.tmod p q) = ([], (q, Int.tmod p q)) :=
        euclidLoop_nil hr
      have ht : Int.tmod p q = 1 := by
        rw [hnil] at hfin'
        exact hfin'
      rw [euclidLoop_cons h, hnil]
      refine ⟨[⟨p, 1, q, -(p.tdiv q)⟩], ⟨p, 1, q, -(p.tdiv q)⟩, upPhase_single _, rfl, rfl, ?_, ?_⟩
      · show p * 1 + q * -(p.tdiv q) = 1
        linear_combination hdiv + ht
      · intro row hrow
        rw [List.mem_singleton] at hrow
        subst hrow
        show p * 1 + q * -(p.tdiv q) = 1
        linear_combination hdiv + ht
  | case2 cur h =>
    intro h2
    exact absurd h2 h

/-! ## Characterization of `extended_euclidean` by branch -/

/-- The normalized operand pair is `(min |x| |y|, max |x| |y|)`: the SMALLER
absolute value is placed first. -/
theorem ee_pair (x y : Int) :
    (if |x| < |y| then ((|x|, |y|) : Int × Int) else (|y|, |x|)) =
      (min |x| |y|, max |x| |y|) := by
  by_cases hsw : |x| < |y|
  · rw [if_pos hsw, Prod.mk.injEq]
    omega
  · rw [if_neg hsw, Prod.mk.injEq]
    omega

/-- Branch-level characterization of `extended_euclidean`: the degenerate
check fires on the LARGER absolute value; the error branch returns the first
component at loop exit; the success branch returns the backward-phase result,
with coefficient order controlled by `|x| < |y|`. -/
theorem ee_branches (x y : Int) :
    (max |x| |y| < 2 → extended_euclidean x y = some (Except.error (max |x| |y|))) ∧
    (¬ max |x| |y| < 2 → (euclidLoop (min |x| |y|, max |x| |y|)).2.2 = 0 →
      extended_euclidean x y =
        some (Except.error (euclidLoop (min |x| |y|, max |x| |y|)).2.1)) ∧
    (¬ max |x| |y| < 2 → (euclidLoop (min |x| |y|, max |x| |y|)).2.2 ≠ 0 →
      ∃ rest U,
        upPhase (euclidLoop (min |x| |y|, max |x| |y|)).1 = some (rest, U) ∧
        extended_euclidean x y = some (Except.ok
          ((if |x| < |y| then U.r1 else U.r3), (if |x| < |y| then U.r3 else U.r1),
           ⟨(euclidLoop (min |x| |y|, max |x| |y|)).1, rest⟩)) ∧
        U.r0 = min |x| |y| ∧ U.r2 = max |x| |y| ∧
        U.r0 * U.r1 + U.r2 * U.r3 = 1 ∧
        ∀ row ∈ rest, row.r0 * row.r1 + row.r2 * row.r3 = 1) := by
  simp only [extended_euclidean, ee_pair]
  refine ⟨?_, ?_, ?_⟩
  · intro hdeg
    rw [if_pos hdeg]
  · intro hdeg hz
    rw [if_neg hdeg, if_pos hz]
  · intro hdeg hz
    rw [if_neg hdeg, if_neg hz]
    have hnn := euclidLoop_fin_nonneg (min |x| |y|, max |x| |y|)
      (by simp [le_min_iff, abs_nonneg]) (by simp [le_max_iff, abs_nonneg])
    have hle := euclidLoop_fin_le_one (min |x| |y|, max |x| |y|)
    have hfin1 : (euclidLoop (min |x| |y|, max |x| |y|)).2.2 = 1 := by omega
    obtain ⟨rest, U, hup, hU0, hU2, hUsum, hall⟩ :=
      upPhase_euclid (min |x| |y|, max |x| |y|) (by simp only; omega) hfin1
    refine ⟨rest, U, hup, ?_, hU0, hU2, hUsum, hall⟩
    rw [hup]

/-- Once the loop has run at least one step, the first component at exit is
the divisor of the last step, which passed the loop guard. -/
theorem euclidLoop_fin_fst_gt_one (cur : Int × Int) :
    1 < cur.2 → 1 < (euclidLoop cur).2.1 := by
  induction cur using euclidLoop.induct with
  | case1 cur h r ih =>
    obtain ⟨p, q⟩ := cur
    intro _
    rw [euclidLoop_cons h]
    by_cases hr : 1 < Int.tmod p q
    · exact ih hr
    · rw [euclidLoop_nil hr]
      exact h
  | case2 cur h =>
    intro h2
    exact absurd h2 h

/-- On an equal pair the first division step leaves remainder `0`. -/
theorem euclidLoop_equal {c : Int} (h : 1 < c) :
    (euclidLoop (c, c)).2.2 = 0 := by
  rw [euclidLoop_cons h]
  have ht : Int.tmod c c = 0 := Int.tmod_self
  rw [ht, euclidLoop_nil (by omega)]

/-- The gcd of the normalized pair is the gcd of the original arguments. -/
theorem gcd_minmax (x y : Int) :
    Int.gcd (min |x| |y|) (max |x| |y|) = Int.gcd x y := by
  rcases le_total |x| |y| with hle | hle
  · rw [min_eq_left hle, max_eq_right hle]
    simp [Int.gcd, Int.natAbs_abs]
  · rw [min_eq_right hle, max_eq_left hle]
    simp [Int.gcd, Int.natAbs_abs, Nat.gcd_comm]

/-- Inversion of a successful call: the returned pieces come from the
backward phase on the normalized pair. -/
theorem ee_ok_inv (x y a b : Int) (v : ExtendedEuclideanView)
    (hok : extended_euclidean x y = some (Except.ok (a, b, v))) :
    ∃ rest U,
      upPhase (euclidLoop (min |x| |y|, max |x| |y|)).1 = some (rest, U) ∧
      v = ⟨(euclidLoop (min |x| |y|, max |x| |y|)).1, rest⟩ ∧
      a = (if |x| < |y| then U.r1 else U.r3) ∧
      b = (if |x| < |y| then U.r3 else U.r1) ∧
      U.r0 = min |x| |y| ∧ U.r2 = max |x| |y| ∧
      U.r0 * U.r1 + U.r2 * U.r3 = 1 ∧
      (∀ row ∈ rest, row.r0 * row.r1 + row.r2 * row.r3 = 1) ∧
      ¬ max |x| |y| < 2 ∧ (euclidLoop (min |x| |y|, max |x| |y|)).2.2 ≠ 0 := by
  obtain ⟨h1, h2, h3⟩ := ee_branches x y
  by_cases hdeg : max |x| |y| < 2
  · rw [h1 hdeg] at hok
    exact absurd hok (by simp)
  by_cases hz : (euclidLoop (min |x| |y|, max |x| |y|)).2.2 = 0
  · rw [h2 hdeg hz] at hok
    exact absurd hok (by simp)
  obtain ⟨rest, U, hup, hee, hU0, hU2, hUsum, hall⟩ := h3 hdeg hz
  rw [hee] at hok
  simp only [Option.some.injEq, Except.ok.injEq, Prod.mk.injEq] at hok
  obtain ⟨ha, hb, hv⟩ := hok
  exact ⟨rest, U, hup, hv.symm, ha.symm, hb.symm, hU0, hU2, hUsum, hall, hdeg, hz⟩

/-! ## Extended-Euclid claims -/

/-- Claim C1 (amended): for coprime `x`, `y` with both absolute values at
least `2`, `extended_euclidean x y` succeeds and its coefficients satisfy the
Bezout identity on the ABSOLUTE values, `a * |x| + b * |y| = 1` (the source
strips the signs and never reinstates them). -/
theorem C1_bezout_abs (x y : Int) (hg : Int.gcd x y = 1)
    (hx : 2 ≤ |x|) (hy : 2 ≤ |y|) : bezoutAbsHolds x y := by
  obtain ⟨_, _, h3⟩ := ee_branches x y
  have hxy := le_max_left |x| |y|
  have hdeg : ¬ max |x| |y| < 2 := by omega
  have hminnn : (0 : Int) ≤ min |x| |y| := le_min (abs_nonneg x) (abs_nonneg y)
  have hmaxnn : (0 : Int) ≤ max |x| |y| := le_trans (abs_nonneg x) hxy
  have hgm : Int.gcd (euclidLoop (min |x| |y|, max |x| |y|)).2.1
      (euclidLoop (min |x| |y|, max |x| |y|)).2.2 = 1 := by
    rw [euclidLoop_gcd _ hminnn hmaxnn, gcd_minmax, hg]
  have hq := euclidLoop_fin_fst_gt_one (min |x| |y|, max |x| |y|) (by simp only; omega)
  have hz : (euclidLoop (min |x| |y|, max |x| |y|)).2.2 ≠ 0 := by
    intro h0
    rw [h0, Int.gcd_zero_right] at hgm
    omega
  obtain ⟨rest, U, hup, hee, hU0, hU2, hUsum, hall⟩ := h3 hdeg hz
  unfold bezoutAbsHolds
  rw [hee]
  by_cases hsw : |x| < |y|
  · have hmin : min |x| |y| = |x| := min_eq_left (le_of_lt hsw)
    have hmax : max |x| |y| = |y| := max_eq_right (le_of_lt hsw)
    rw [hmin] at hU0
    rw [hmax] at hU2
    simp only [if_pos hsw]
    rw [← hU0, ← hU2]
    linarith [hUsum]
  · have hmin : min |x| |y| = |y| := min_eq_right (le_of_not_lt hsw)
    have hmax : max |x| |y| = |x| := max_eq_left (le_of_not_lt hsw)
    rw [hmin] at hU0
    rw [hmax] at hU2
    simp only [if_neg hsw]
    rw [← hU0, ← hU2]
    linarith [hUsum]

/-- Witness for C1 (amended) at the coprime pair `(17, 5)`. -/
theorem C1_bezout_abs_witness :
    Int.gcd 17 5 = 1 ∧ 2 ≤ |(17 : Int)| ∧ 2 ≤ |(5 : Int)| ∧ bezoutAbsHolds 17 5 :=
  ⟨by norm_num, by norm_num, by norm_num,
    C1_bezout_abs 17 5 (by norm_num) (by norm_num) (by norm_num)⟩

/-- Claim C2 (amended): the degenerate early-failure check fires only when
the LARGER of the two absolute values is below `2` (both operands in
`{-1, 0, 1}`), and it returns that larger value as the gcd. -/
theorem C2_degenerate_on_max (x y : Int) (h : max |x| |y| < 2) :
    extended_euclidean x y = some (Except.error (max |x| |y|)) :=
  (ee_branches x y).1 h

/-- Witness for C2 (amended) at `(1, 0)`: failure carrying `1`. -/
theorem C2_degenerate_on_max_witness :
    max |(1 : Int)| |(0 : Int)| < 2 ∧
    extended_euclidean 1 0 = some (Except.error (max |(1 : Int)| |(0 : Int)|)) :=
  ⟨by decide, C2_degenerate_on_max 1 0 (by decide)⟩

/-- Claim C3: whenever `gcd(|x|, |y|) > 1` or one operand is `0`,
`extended_euclidean` fails carrying `gcd(|x|, |y|)` (for a zero operand this
is the other value's absolute value). -/
theorem C3_noncoprime_fails (x y : Int)
    (h : 1 < Int.gcd x y ∨ x = 0 ∨ y = 0) :
    extended_euclidean x y = some (Except.error ((Int.gcd x y : Int))) := by
  obtain ⟨h1, h2, _⟩ := ee_branches x y
  have habsx : |x| = ((x.natAbs : Int)) := Int.abs_eq_natAbs x
  have habsy : |y| = ((y.natAbs : Int)) := Int.abs_eq_natAbs y
  have hgcd : Int.gcd x y = Nat.gcd x.natAbs y.natAbs := rfl
  have hminnn : (0 : Int) ≤ min |x| |y| := le_min (abs_nonneg x) (abs_nonneg y)
  have hmaxnn : (0 : Int) ≤ max |x| |y| := le_trans (abs_nonneg x) (le_max_left _ _)
  by_cases hdeg : max |x| |y| < 2
  · rw [h1 hdeg]
    have hdeg' : max ((x.natAbs : Int)) ((y.natAbs : Int)) < 2 := by
      rw [habsx, habsy] at hdeg
      exact hdeg
    have hx1 : x.natAbs ≤ 1 := by
      have := le_max_left ((x.natAbs : Int)) ((y.natAbs : Int))
      omega
    have hy1 : y.natAbs ≤ 1 := by
      have := le_max_right ((x.natAbs : Int)) ((y.natAbs : Int))
      omega
    have hgle : ¬ 1 < Int.gcd x y := by
      intro hg
      rcases Nat.eq_zero_or_pos x.natAbs with hx' | hx'
      · rw [hgcd, hx', Nat.gcd_zero_left] at hg
        omega
      · have hle2 : Nat.gcd x.natAbs y.natAbs ≤ x.natAbs := Nat.gcd_le_left _ hx'
        rw [hgcd] at hg
        omega
    rcases h with hg | hx0 | hy0
    · exact absurd hg hgle
    · subst hx0
      have hg0 : Int.gcd 0 y = y.natAbs := by
        rw [hgcd]
        simp
      rw [hg0]
      congr 2
      rw [abs_zero, habsy]
      omega
    · subst hy0
      have hg0 : Int.gcd x 0 = x.natAbs := by
        rw [hgcd]
        simp
      rw [hg0]
      congr 2
      rw [abs_zero, habsx]
      omega
  · have hg1 : 1 < Int.gcd x y := by
      rcases h with hg | hx0 | hy0
      · exact hg
      · subst hx0
        rw [hgcd]
        simp only [Int.natAbs_zero, Nat.gcd_zero_left]
        rw [abs_zero, habsy] at hdeg
        omega
      · subst hy0
        rw [hgcd]
        simp only [Int.natAbs_zero, Nat.gcd_zero_right]
        rw [abs_zero, habsx] at hdeg
        omega
    have hgm : Int.gcd (euclidLoop (min |x| |y|, max |x| |y|)).2.1
        (euclidLoop (min |x| |y|, max |x| |y|)).2.2 = Int.gcd x y := by
      rw [euclidLoop_gcd _ hminnn hmaxnn, gcd_minmax]
    have hnn := euclidLoop_fin_nonneg (min |x| |y|, max |x| |y|) hminnn hmaxnn
    have hle := euclidLoop_fin_le_one (min |x| |y|, max |x| |y|)
    have hz : (euclidLoop (min |x| |y|, max |x| |y|)).2.2 = 0 := by
      by_contra hz'
      have hfin1 : (euclidLoop (min |x| |y|, max |x| |y|)).2.2 = 1 := by omega
      rw [hfin1] at hgm
      have hone : Int.gcd (euclidLoop (min |x| |y|, max |x| |y|)).2.1 1 = 1 := by
        unfold Int.gcd
        rw [Int.natAbs_one, Nat.gcd_one_right]
      omega
    rw [h2 hdeg hz]
    rw [hz, Int.gcd_zero_right] at hgm
    have hfst := hnn.1
    congr 2
    omega

/-- Claim C6: `extended_euclidean` never panics — for every pair of inputs
it returns a value (the success or the failure variant); in particular the
`expect("Infallible")` on the forward trace never fires. -/
theorem C6_no_panic (x y : Int) : (extended_euclidean x y).isSome = true := by
  obtain ⟨h1, h2, h3⟩ := ee_branches x y
  by_cases hdeg : max |x| |y| < 2
  · rw [h1 hdeg]
    rfl
  by_cases hz : (euclidLoop (min |x| |y|, max |x| |y|)).2.2 = 0
  · rw [h2 hdeg hz]
    rfl
  · obtain ⟨rest, U, hup, hee, _⟩ := h3 hdeg hz
    rw [hee]
    rfl

/-- Claim C5 (amended): in every successful run, every forward (`down`) row
`[x, y, q, r]` satisfies `x = y * q + r`, and every backward (`up`) row
`[p, a, q, b]` satisfies `p * a + q * b = 1`, where `p`, `q` are the
successive remainders of the forward chain (not the caller's original
arguments). -/
theorem C5_trace_invariants (x y a b : Int) (v : ExtendedEuclideanView)
    (hok : extended_euclidean x y = some (Except.ok (a, b, v))) :
    (∀ row ∈ v.down, row.r0 = row.r1 * row.r2 + row.r3) ∧
    (∀ row ∈ v.up, row.r0 * row.r1 + row.r2 * row.r3 = 1) := by
  obtain ⟨rest, U, hup, hv, ha, hb, hU0, hU2, hUsum, hall, hdeg, hz⟩ :=
    ee_ok_inv x y a b v hok
  subst hv
  constructor
  · intro row hrow
    exact (euclidLoop_rows_div _ row hrow).1
  · intro row hrow
    exact hall row hrow

/-- Claim C7 (amended): if `extended_euclidean x y` succeeds with
coefficients `(a, b)`, then `extended_euclidean y x` succeeds with the
swapped coefficients `(b, a)`, and the Bezout identity holds on the ABSOLUTE
values: `b * |y| + a * |x| = 1`. -/
theorem C7_swap_coeffs (x y a b : Int) (h : coeffs x y = some (a, b)) :
    coeffs y x = some (b, a) ∧ b * |y| + a * |x| = 1 := by
  obtain ⟨v, hok⟩ : ∃ v, extended_euclidean x y = some (Except.ok (a, b, v)) := by
    unfold coeffs at h
    cases hee : extended_euclidean x y with
    | none =>
      rw [hee] at h
      simp at h
    | some r =>
      cases r with
      | error g =>
        rw [hee] at h
        simp at h
      | ok t =>
        obtain ⟨a', b', v⟩ := t
        rw [hee] at h
        simp only [Option.some.injEq, Prod.mk.injEq] at h
        obtain ⟨ha, hb⟩ := h
        subst ha
        subst hb
        exact ⟨v, rfl⟩
  obtain ⟨rest, U, hup, hv, ha, hb, hU0, hU2, hUsum, hall, hdeg, hz⟩ :=
    ee_ok_inv x y a b v hok
  by_cases hsw : |x| < |y|
  · have hswn : ¬ |y| < |x| := not_lt.mpr (le_of_lt hsw)
    have hminc : min |y| |x| = min |x| |y| := min_comm _ _
    have hmaxc : max |y| |x| = max |x| |y| := max_comm _ _
    obtain ⟨_, _, g3⟩ := ee_branches y x
    have hdeg2 : ¬ max |y| |x| < 2 := by
      rw [hmaxc]
      exact hdeg
    have hz2 : (euclidLoop (min |y| |x|, max |y| |x|)).2.2 ≠ 0 := by
      rw [hminc, hmaxc]
      exact hz
    obtain ⟨rest2, U2, hup2, hee2, hU02, hU22, hUsum2, hall2⟩ := g3 hdeg2 hz2
    rw [hminc, hmaxc, hup] at hup2
    simp only [Option.some.injEq, Prod.mk.injEq] at hup2
    obtain ⟨hrest, hU⟩ := hup2
    have hmin : min |x| |y| = |x| := min_eq_left (le_of_lt hsw)
    have hmax : max |x| |y| = |y| := max_eq_right (le_of_lt hsw)
    constructor
    · unfold coeffs
      rw [hee2]
      simp only [if_neg hswn]
      rw [← hU, ha, hb]
      simp [if_pos hsw]
    · rw [ha, hb]
      simp only [if_pos hsw]
      rw [hmin] at hU0
      rw [hmax] at hU2
      rw [← hU0, ← hU2]
      linarith [hUsum]
  · by_cases hsw2 : |y| < |x|
    · have hminc : min |y| |x| = min |x| |y| := min_comm _ _
      have hmaxc : max |y| |x| = max |x| |y| := max_comm _ _
      obtain ⟨_, _, g3⟩ := ee_branches y x
      have hdeg2 : ¬ max |y| |x| < 2 := by
        rw [hmaxc]
        exact hdeg
      have hz2 : (euclidLoop (min |y| |x|, max |y| |x|)).2.2 ≠ 0 := by
        rw [hminc, hmaxc]
        exact hz
      obtain ⟨rest2, U2, hup2, hee2, hU02, hU22, hUsum2, hall2⟩ := g3 hdeg2 hz2
      rw [hminc, hmaxc, hup] at hup2
      simp only [Option.some.injEq, Prod.mk.injEq] at hup2
      obtain ⟨hrest, hU⟩ := hup2
      have hmin : min |x| |y| = |y| := min_eq_right (le_of_not_lt hsw)
      have hmax : max |x| |y| = |x| := max_eq_left (le_of_not_lt hsw)
      constructor
      · unfold coeffs
        rw [hee2]
        simp only [if_pos hsw2]
        rw [← hU, ha, hb]
        simp [if_neg hsw]
      · rw [ha, hb]
        simp only [if_neg hsw]
        rw [hmin] at hU0
        rw [hmax] at hU2
        rw [← hU0, ← hU2]
        linarith [hUsum]
    · exfalso
      have heq : |x| = |y| := le_antisymm (not_lt.mp hsw2) (not_lt.mp hsw)
      rw [← heq, min_self, max_self] at hz
      rw [← heq, max_self] at hdeg
      exact hz (euclidLoop_equal (by omega))

/-- Counterexample to claim C1: on the coprime pair `(-17, 5)` (both absolute
values at least 2) the call succeeds with `(a, b) = (-2, 7)`, but
`a*x + b*y = (-2)*(-17) + 7*5 = 69 ≠ 1` for the caller's original negative
argument — the coefficients fit the absolute values only. -/
theorem C1_counterexample :
    Int.gcd (-17) 5 = 1 ∧ 2 ≤ |(-17 : Int)| ∧ 2 ≤ |(5 : Int)| ∧
    extended_euclidean (-17) 5 =
      some (Except.ok (-2, 7,
        ⟨[⟨5, 17, 0, 5⟩, ⟨17, 5, 3, 2⟩, ⟨5, 2, 2, 1⟩],
         [⟨5, 1, 2, -2⟩, ⟨17, -2, 5, 7⟩, ⟨5, 7, 17, -2⟩]⟩)) ∧
    (-2 : Int) * (-17) + 7 * 5 ≠ 1 := by
  refine ⟨by norm_num, by norm_num, by norm_num, ?_, by norm_num⟩
  simp [extended_euclidean, euclidLoop_cons, euclidLoop_nil, upPhase, upLoop, upStep,
        Int.tmod, Int.tdiv]

/-- Counterexample to claim C2: at `(1, 7)` the smaller post-ordering value
is `1 < 2`, yet the call does NOT fail — it succeeds with coefficients
`(1, 0)`; in particular it does not return `Err(1)`. -/
theorem C2_counterexample :
    extended_euclidean 1 7 =
      some (Except.ok (1, 0, ⟨[⟨1, 7, 0, 1⟩], [⟨1, 1, 7, 0⟩]⟩)) ∧
    extended_euclidean 1 7 ≠ some (Except.error 1) := by
  constructor
  · simp [extended_euclidean, euclidLoop_cons, euclidLoop_nil, upPhase, upLoop, upStep,
          Int.tmod, Int.tdiv]
  · simp [extended_euclidean, euclidLoop_cons, euclidLoop_nil, upPhase, upLoop, upStep,
          Int.tmod, Int.tdiv]

/-- Witness for C3 at `(240, 46)`: gcd is `2 > 1` and the call fails
carrying it. -/
theorem C3_noncoprime_fails_witness :
    1 < Int.gcd 240 46 ∧
    extended_euclidean 240 46 = some (Except.error ((Int.gcd 240 46 : Int))) :=
  ⟨by norm_num, C3_noncoprime_fails 240 46 (Or.inl (by norm_num))⟩

/-- Counterexample to claim C5: in the successful run on `(17, 5)` the first
backward row is `[5, 1, 2, -2]`; its coefficient entries `(1, -2)` (in either
pairing) do not satisfy `a*X + b*Y = r` for the original call's `X = 17`,
`Y = 5` and the back-substitution invariant value `r = 1` — the row's actual
invariant is `5*1 + 2*(-2) = 1` over the intermediate remainders `5` and `2`. -/
theorem C5_counterexample :
    extended_euclidean 17 5 =
      some (Except.ok (-2, 7,
        ⟨[⟨5, 17, 0, 5⟩, ⟨17, 5, 3, 2⟩, ⟨5, 2, 2, 1⟩],
         [⟨5, 1, 2, -2⟩, ⟨17, -2, 5, 7⟩, ⟨5, 7, 17, -2⟩]⟩)) ∧
    (1 : Int) * 17 + (-2) * 5 ≠ 1 ∧
    (-2 : Int) * 17 + 1 * 5 ≠ 1 ∧
    (5 : Int) * 1 + 2 * (-2) = 1 := by
  refine ⟨?_, by norm_num, by norm_num, by norm_num⟩
  simp [extended_euclidean, euclidLoop_cons, euclidLoop_nil, upPhase, upLoop, upStep,
        Int.tmod, Int.tdiv]

/-- Witness for C5 (amended) at `(17, 5)`: the second forward row
`[17, 5, 3, 2]` satisfies the division identity, and the final backward row
`[5, 7, 17, -2]` satisfies the unit identity. -/
theorem C5_trace_invariants_witness :
    ((⟨17, 5, 3, 2⟩ : EERow).r0 =
      (⟨17, 5, 3, 2⟩ : EERow).r1 * (⟨17, 5, 3, 2⟩ : EERow).r2 +
        (⟨17, 5, 3, 2⟩ : EERow).r3) ∧
    ((⟨5, 7, 17, -2⟩ : EERow).r0 * (⟨5, 7, 17, -2⟩ : EERow).r1 +
      (⟨5, 7, 17, -2⟩ : EERow).r2 * (⟨5, 7, 17, -2⟩ : EERow).r3 = 1) := by
  have h := C5_trace_invariants 17 5 (-2) 7
      ⟨[⟨5, 17, 0, 5⟩, ⟨17, 5, 3, 2⟩, ⟨5, 2, 2, 1⟩],
       [⟨5, 1, 2, -2⟩, ⟨17, -2, 5, 7⟩, ⟨5, 7, 17, -2⟩]⟩
      (by simp [extended_euclidean, euclidLoop_cons, euclidLoop_nil, upPhase, upLoop,
            upStep, Int.tmod, Int.tdiv])
  exact ⟨h.1 _ (by simp), h.2 _ (by simp)⟩

/-- Counterexample to claim C7: swapping the arguments of the succeeding call
`extended_euclidean (-17) 5` does yield the swapped coefficients, but the
claimed identity `b*y + a*x = 1` fails on the original (negative) arguments:
`7*5 + (-2)*(-17) = 69 ≠ 1`. -/
theorem C7_counterexample :
    extended_euclidean (-17) 5 =
      some (Except.ok (-2, 7,
        ⟨[⟨5, 17, 0, 5⟩, ⟨17, 5, 3, 2⟩, ⟨5, 2, 2, 1⟩],
         [⟨5, 1, 2, -2⟩, ⟨17, -2, 5, 7⟩, ⟨5, 7, 17, -2⟩]⟩)) ∧
    extended_euclidean 5 (-17) =
      some (Except.ok (7, -2,
        ⟨[⟨5, 17, 0, 5⟩, ⟨17, 5, 3, 2⟩, ⟨5, 2, 2, 1⟩],
         [⟨5, 1, 2, -2⟩, ⟨17, -2, 5, 7⟩, ⟨5, 7, 17, -2⟩]⟩)) ∧
    (7 : Int) * 5 + (-2) * (-17) ≠ 1 := by
  refine ⟨?_, ?_, by norm_num⟩
  · simp [extended_euclidean, euclidLoop_cons, euclidLoop_nil, upPhase, upLoop, upStep,
          Int.tmod, Int.tdiv]
  · simp [extended_euclidean, euclidLoop_cons, euclidLoop_nil, upPhase, upLoop, upStep,
          Int.tmod, Int.tdiv]

/-- Witness for C7 (amended) at `(17, 5)`: coefficients `(-2, 7)` swap to
`(7, -2)` and satisfy the identity on absolute values. -/
theorem C7_swap_coeffs_witness :
    coeffs 17 5 = some (-2, 7) ∧ coeffs 5 17 = some (7, -2) ∧
    (7 : Int) * |(5 : Int)| + (-2) * |(17 : Int)| = 1 := by
  have h0 : coeffs 17 5 = some (-2, 7) := by
    simp [coeffs, extended_euclidean, euclidLoop_cons, euclidLoop_nil, upPhase, upLoop,
          upStep, Int.tmod, Int.tdiv]
  have h := C7_swap_coeffs 17 5 (-2) 7 h0
  exact ⟨h0, h.1, h.2⟩

/-! ## Ring claims -/

/-- Claim C4: `sub` on two elements of the same ring returns exactly
`(lhs.value + modulus + rhs.value) mod modulus` — the formula adds
`rhs.value`, it does not subtract it. -/
theorem C4_sub_adds_rhs (lhs rhs : SmallRingElement)
    (hring : lhs.ring = rhs.ring) (hmod : lhs.ring.module ≠ 0) :
    lhs.sub rhs =
      some ⟨lhs.ring, (lhs.value + lhs.ring.module + rhs.value) % lhs.ring.module⟩ := by
  have hmod2 : rhs.ring.module ≠ 0 := by rw [← hring]; exact hmod
  simp [SmallRingElement.sub, hring, hmod, hmod2]

/-- Witness for C4 at `ring(7)` elements with values 3 and 5:
`sub` returns `(3 + 7 + 5) % 7 = 1`. -/
theorem C4_sub_adds_rhs_witness :
    (SmallRingElement.mk ⟨7⟩ 3).sub (SmallRingElement.mk ⟨7⟩ 5) =
      some (SmallRingElement.mk ⟨7⟩ ((3 + 7 + 5) % 7)) :=
  C4_sub_adds_rhs (SmallRingElement.mk ⟨7⟩ 3) (SmallRingElement.mk ⟨7⟩ 5)
    rfl (by decide)

/-- Counterexample to claim C8: `rem` combines two elements from different
ring identities (`ring(7)` and `ring(11)`) without aborting — it returns a
result wrapped in the left operand's ring. -/
theorem C8_counterexample :
    (SmallRingElement.mk ⟨7⟩ 3).ring ≠ (SmallRingElement.mk ⟨11⟩ 2).ring ∧
    (SmallRingElement.mk ⟨7⟩ 3).rem (SmallRingElement.mk ⟨11⟩ 2) =
      some (SmallRingElement.mk ⟨7⟩ 1) := by
  decide

/-- Claim C8 (amended): `add`, `sub` and `mul` abort (panic) when the two
operands belong to different ring identities, but `rem` performs no
ring-identity check: it returns `lhs.value % rhs.value` wrapped in the left
operand's ring whenever the right value is nonzero. -/
theorem C8_mismatch_aborts (lhs rhs : SmallRingElement)
    (hne : lhs.ring ≠ rhs.ring) :
    lhs.add rhs = none ∧ lhs.sub rhs = none ∧ lhs.mul rhs = none ∧
    (rhs.value ≠ 0 →
      lhs.rem rhs = some (lhs.ring.create_element (lhs.value % rhs.value))) := by
  refine ⟨?_, ?_, ?_, ?_⟩
  · simp [SmallRingElement.add, hne]
  · simp [SmallRingElement.sub, hne]
  · simp [SmallRingElement.mul, hne]
  · intro hv
    simp [SmallRingElement.rem, hv]

/-- Witness for C8 (amended) at a `ring(7)` element and a `ring(11)` element. -/
theorem C8_mismatch_aborts_witness :
    (SmallRingElement.mk ⟨7⟩ 3).add (SmallRingElement.mk ⟨11⟩ 2) = none ∧
    (SmallRingElement.mk ⟨7⟩ 3).sub (SmallRingElement.mk ⟨11⟩ 2) = none ∧
    (SmallRingElement.mk ⟨7⟩ 3).mul (SmallRingElement.mk ⟨11⟩ 2) = none ∧
    (SmallRingElement.mk ⟨7⟩ 3).rem (SmallRingElement.mk ⟨11⟩ 2) =
      some ((SmallRingElement.mk ⟨7⟩ 3).ring.create_element (3 % 2)) := by
  have h := C8_mismatch_aborts (SmallRingElement.mk ⟨7⟩ 3)
    (SmallRingElement.mk ⟨11⟩ 2) (by decide)
  exact ⟨h.1, h.2.1, h.2.2.1, h.2.2.2 (by decide)⟩

/-- Counterexample to claim C9: `neg` applied to the zero element of
`ring(7)` yields the stored value `7`, which is NOT in `[0, 7)`. -/
theorem C9_counterexample :
    (SmallRingElement.mk ⟨7⟩ 0).neg = SmallRingElement.mk ⟨7⟩ 7 ∧
    ¬ ((SmallRingElement.mk ⟨7⟩ 0).neg.value <
        (SmallRingElement.mk ⟨7⟩ 0).ring.module) := by
  decide

/-- Claim C9 (amended): for a positive modulus and reduced operands,
`add`, `sub`, `mul` and `rem` return values in `[0, modulus)`; `neg` of a
nonzero reduced value is also in range, but `neg` of the zero element yields
exactly the modulus, outside the range. -/
theorem C9_results_reduced (lhs rhs : SmallRingElement)
    (hring : lhs.ring = rhs.ring) (hmod : 0 < lhs.ring.module)
    (hl : lhs.value < lhs.ring.module) (hr : rhs.value < rhs.ring.module) :
    (lhs.add rhs = some ⟨lhs.ring, (lhs.value + rhs.value) % lhs.ring.module⟩ ∧
      (lhs.value + rhs.value) % lhs.ring.module < lhs.ring.module) ∧
    (lhs.sub rhs =
        some ⟨lhs.ring, (lhs.value + lhs.ring.module + rhs.value) % lhs.ring.module⟩ ∧
      (lhs.value + lhs.ring.module + rhs.value) % lhs.ring.module < lhs.ring.module) ∧
    (lhs.mul rhs = some ⟨lhs.ring, (lhs.value * rhs.value) % lhs.ring.module⟩ ∧
      (lhs.value * rhs.value) % lhs.ring.module < lhs.ring.module) ∧
    (rhs.value ≠ 0 →
      lhs.rem rhs = some (lhs.ring.create_element (lhs.value % rhs.value)) ∧
      lhs.value % rhs.value < lhs.ring.module) ∧
    (0 < lhs.value → lhs.neg.value < lhs.ring.module) ∧
    (lhs.value = 0 → lhs.neg.value = lhs.ring.module) := by
  have hmodeq : rhs.ring.module = lhs.ring.module := by rw [hring]
  have hmodne : lhs.ring.module ≠ 0 := Nat.pos_iff_ne_zero.mp hmod
  have hmodne2 : rhs.ring.module ≠ 0 := by rw [hmodeq]; exact hmodne
  refine ⟨⟨?_, ?_⟩, ⟨?_, ?_⟩, ⟨?_, ?_⟩, ?_, ?_, ?_⟩
  · simp [SmallRingElement.add, hring, hmodne, hmodne2]
  · exact Nat.mod_lt _ hmod
  · simp [SmallRingElement.sub, hring, hmodne, hmodne2]
  · exact Nat.mod_lt _ hmod
  · simp [SmallRingElement.mul, hring, hmodne, hmodne2]
  · exact Nat.mod_lt _ hmod
  · intro hv
    refine ⟨by simp [SmallRingElement.rem, hv], ?_⟩
    have h1 : lhs.value % rhs.value < rhs.value := Nat.mod_lt _ (Nat.pos_of_ne_zero hv)
    omega
  · intro hpos
    simp only [SmallRingElement.neg, SmallRing.create_element]
    omega
  · intro hzero
    simp only [SmallRingElement.neg, SmallRing.create_element, hzero]
    omega

/-- Witness for C9 (amended) at `ring(7)` elements with values 3 and 5. -/
theorem C9_results_reduced_witness :
    (SmallRingElement.mk ⟨7⟩ 3).add (SmallRingElement.mk ⟨7⟩ 5) =
      some (SmallRingElement.mk ⟨7⟩ ((3 + 5) % 7)) ∧
    (3 + 5) % 7 < 7 ∧
    (SmallRingElement.mk ⟨7⟩ 3).neg.value < 7 := by
  have h := C9_results_reduced (SmallRingElement.mk ⟨7⟩ 3)
    (SmallRingElement.mk ⟨7⟩ 5) rfl (by decide) (by decide) (by decide)
  exact ⟨h.1.1, h.1.2, h.2.2.2.2.1 (by decide)⟩

/-- Counterexample to claim C10: two elements with equal stored value 3 but
different ring identities (`ring(7)`, `ring(11)`) are ordering-equivalent yet
NOT equal — the derived equality also compares the ring. -/
theorem C10_counterexample :
    (SmallRingElement.mk ⟨7⟩ 3).cmp (SmallRingElement.mk ⟨11⟩ 3) = Ordering.eq ∧
    SmallRingElement.mk ⟨7⟩ 3 ≠ SmallRingElement.mk ⟨11⟩ 3 := by
  constructor
  · simp [SmallRingElement.cmp, compare_eq_iff_eq]
  · decide

/-- Claim C10 (amended): ordering of ring elements is defined purely on the
stored value, ignoring ring identity, but equality (the derived one) compares
the ring identity and the stored value. -/
theorem C10_cmp_value_eq_both (a b : SmallRingElement) :
    (a.cmp b = Ordering.eq ↔ a.value = b.value) ∧
    (a = b ↔ a.ring = b.ring ∧ a.value = b.value) := by
  constructor
  · simp [SmallRingElement.cmp, compare_eq_iff_eq]
  · cases a
    cases b
    simp

end ZkExam
